import Mathlib

/-!
Shallow embedding of the QKD post-processing repository
(`qkd/cascade.py`, `qkd/parameter_estimation.py`,
`qkd/privacy_amplification.py`, `qkd/cascade_wrapper.py`,
`alice_server.py`, `bob_client.py`, `process_large_file.py`,
`small_portion_test.py`, `bb84.py`).

Bits are embedded as natural numbers (the pipeline produces `uint8` values
0/1), numpy arrays and Python lists as `List ℕ`, Python floats as `ℚ`
(with IEEE NaN embedded as `Option.none` where the code can produce it),
and the randomness of `np.random` as explicit arguments.
-/

namespace QKD

/-- `parity(bits)` from `qkd/cascade.py` line 5: sum of the bits modulo 2. -/
def parity (bits : List ℕ) : ℕ := bits.sum % 2

/-- Fueled core of `binary_search_error` from `qkd/cascade.py` lines 8–17.
The Python function recurses on the halves `[:mid]` / `[mid:]` of the two
blocks; on a block of length 0 it would recurse forever (`mid = 0` and
`block[0:] = block`), which the fuel models as `none`.  Every call on a
block of length at least 1 returns `some`. -/
def binary_search_error_go : ℕ → List ℕ → List ℕ → ℕ → Option ℕ
  | 0, _, _, _ => none
  | fuel + 1, alice_block, bob_block, start_index =>
    if alice_block.length = 1 then
      some start_index
    else
      let mid := alice_block.length / 2
      if parity (alice_block.take mid) ≠ parity (bob_block.take mid) then
        binary_search_error_go fuel (alice_block.take mid) (bob_block.take mid) start_index
      else
        binary_search_error_go fuel (alice_block.drop mid) (bob_block.drop mid)
          (start_index + mid)

/-- `binary_search_error(alice_block, bob_block, start_index)` from
`qkd/cascade.py` lines 8–17. -/
def binary_search_error (alice_block bob_block : List ℕ) (start_index : ℕ) : Option ℕ :=
  binary_search_error_go alice_block.length alice_block bob_block start_index

/-- `corrected_bob_permuted[error_index] ^= 1` from `qkd/cascade.py` line 45:
flip one bit in place (out-of-range indices never arise). -/
def flip_bit (xs : List ℕ) (i : ℕ) : List ℕ := xs.set i (xs.getD i 0 ^^^ 1)

/-- One step of the block loop of `cascade_iteration` (`qkd/cascade.py`
lines 34–46), acting on the accumulator
(corrected key, leaked_bits, corrected_errors) at block start `i`.
Blocks shorter than 2 are skipped; otherwise one leaked bit is counted and a
mismatching block is bisected and the located bit flipped.  The `getD i`
fallback is never reached: on a block of length at least 2 the bisection
always returns `some`. -/
def cascade_step (alice bob : List ℕ) (block_size : ℕ)
    (acc : List ℕ × ℕ × ℕ) (i : ℕ) : List ℕ × ℕ × ℕ :=
  let alice_block := (alice.drop i).take block_size
  let bob_block := (bob.drop i).take block_size
  if alice_block.length < 2 then acc
  else if parity alice_block ≠ parity bob_block then
    (flip_bit acc.1 ((binary_search_error alice_block bob_block i).getD i),
      acc.2.1 + 1, acc.2.2 + 1)
  else
    (acc.1, acc.2.1 + 1, acc.2.2)

/-- The block loop `for i in range(0, len(alice_key), block_size)` of
`cascade_iteration`, run over the permuted keys; `n` is `len(alice_key)`
(the length of the original, unpermuted key, as in the source). -/
def cascade_pass (n : ℕ) (alice bob : List ℕ) (block_size : ℕ) : List ℕ × ℕ × ℕ :=
  (List.range' 0 ((n + block_size - 1) / block_size) block_size).foldl
    (cascade_step alice bob block_size) (bob, 0, 0)

/-- numpy fancy indexing `xs[idx]`: the list of `xs` entries at the given
indices, in index-list order. -/
def npIndex (xs idx : List ℕ) : List ℕ := idx.map (fun j => xs.getD j 0)

/-- `corrected_bob = np.empty_like(v); corrected_bob[permutation] = v`
from `qkd/cascade.py` lines 49–50: scatter-assign `vals` into a fresh array
of length `n` at positions `idx` (the uninitialized `empty_like` cells are
embedded as 0; a bijective permutation overwrites all of them). -/
def scatter (idx vals : List ℕ) (n : ℕ) : List ℕ :=
  (idx.zip vals).foldl (fun acc p => acc.set p.1 p.2) (List.replicate n 0)

/-- `cascade_iteration(alice_key, bob_key, block_size, permutation)` from
`qkd/cascade.py` lines 20–55.  Returns (corrected_bob, leaked_bits,
corrected_errors). -/
def cascade_iteration (alice_key bob_key : List ℕ) (block_size : ℕ)
    (permutation : Option (List ℕ)) : List ℕ × ℕ × ℕ :=
  match permutation with
  | none => cascade_pass alice_key.length alice_key bob_key block_size
  | some p =>
    let alice_permuted := npIndex alice_key p
    let bob_permuted := npIndex bob_key p
    let r := cascade_pass alice_key.length alice_permuted bob_permuted block_size
    (scatter p r.1 r.1.length, r.2.1, r.2.2)

/-- `base_block_size = max(4, int(0.73 / max(qber, 1e-5)))` from
`qkd/cascade.py` line 66 (`int` on a positive float truncates, i.e. floors). -/
def base_block_size (qber : ℚ) : ℕ :=
  max 4 (Int.floor ((73 / 100 : ℚ) / max qber (1 / 100000))).toNat

/-- `block_size = min(n, base_block_size * (2 ** it))` from
`qkd/cascade.py` line 72: the block size used in pass `k` (0-indexed). -/
def block_size (n : ℕ) (qber : ℚ) (k : ℕ) : ℕ :=
  min n (base_block_size qber * 2 ^ k)

/-- The base block size exactly as the spec words it (§4.3 step 2):
`max(4, round(0.73 / max(estimated_qber, ε)))` — rounding to the nearest
integer, to be compared with the code's truncating `base_block_size`. -/
def base_block_size_specform (qber eps : ℚ) : ℕ :=
  max 4 (round ((73 / 100 : ℚ) / max qber eps)).toNat

/-- `toeplitz_hash(key, output_length, seed)` from
`qkd/privacy_amplification.py` lines 8–21, in the supplied-seed case
(`seed=None` draws a fresh random seed; determinism is claimed only for an
explicitly supplied seed).  Output bit `i` is
`np.sum(seed[i:i + n] & key) % 2`; the function returns the hashed key
together with the seed it used. -/
def toeplitz_hash (key : List ℕ) (output_length : ℕ) (seed : List ℕ) :
    List ℕ × List ℕ :=
  let n := key.length
  ((List.range output_length).map
      (fun i => (((seed.drop i).take n).zipWith (fun a b => a &&& b) key).sum % 2),
    seed)

/- `binary_entropy` consumes `qber_high` in the drivers; its value only
feeds the (float) final-length computation, which the driver embeddings
take as an explicit argument, so the entropy itself needs no embedding. -/

/-- `qber_confidence_interval(qber, n, z=3)` from
`qkd/parameter_estimation.py` lines 10–14.  `math.sqrt` is a real-number
operation; it is abstracted as the argument `sqrtA`, which the `n = 0`
guard never evaluates.  The NaN that the caller can pass as `qber`
(see `parameter_estimation`) is embedded as `none`; it is only ever passed
together with `n = 0`, where the guard returns `(0, 0)` without touching it. -/
def qber_confidence_interval (sqrtA : ℚ → ℚ) (qber : Option ℚ) (n : ℕ) : ℚ × ℚ :=
  if n = 0 then (0, 0)
  else
    match qber with
    | none => (0, 0)
    | some q =>
      let delta := 3 * sqrtA (q * (1 - q) / n)
      (max 0 (q - delta), min 1 (q + delta))

/-- The residual key `alice_bits[mask]` of `qkd/parameter_estimation.py`
lines 28–31: keep, in order, the entries whose index is not in
`sample_idx`. -/
def mask_keep (xs sample_idx : List ℕ) : List ℕ :=
  (xs.enum.filter (fun p => !sample_idx.contains p.1)).map Prod.snd

/-- `parameter_estimation(alice_bits, bob_bits, sample_ratio)` from
`qkd/parameter_estimation.py` lines 17–42, with the random draw
`np.random.choice(len(alice_bits), sample_size, replace=False)` passed in
explicitly as `sample_idx` (a duplicate-free list of in-range indices of
length `sample_size`).  The QBER point estimate is `errors / sample_size`
with no guard; when `sample_size = 0` numpy evaluates `0 / 0` to NaN
(with a warning), embedded here as `none`.  Returns
(qber, (qber_low, qber_high), a_key, b_key). -/
def parameter_estimation (sqrtA : ℚ → ℚ) (alice_bits bob_bits : List ℕ)
    (sample_frac : ℚ) (sample_idx : List ℕ) :
    Option ℚ × (ℚ × ℚ) × List ℕ × List ℕ :=
  let sample_size := (Int.floor ((alice_bits.length : ℚ) * sample_frac)).toNat
  let errors := sample_idx.countP (fun i => !(alice_bits.getD i 0 == bob_bits.getD i 0))
  let qber : Option ℚ :=
    if sample_size = 0 then none else some ((errors : ℚ) / (sample_size : ℚ))
  (qber, qber_confidence_interval sqrtA qber sample_size,
    mask_keep alice_bits sample_idx, mask_keep bob_bits sample_idx)

/-- Insertion into a descending-sorted list (helper for `sort_desc`). -/
def insert_desc (i : ℕ) : List ℕ → List ℕ
  | [] => [i]
  | j :: rest => if i ≥ j then i :: j :: rest else j :: insert_desc i rest

/-- `sorted(sample_indices, reverse=True)` from `bb84.py` line 62. -/
def sort_desc (xs : List ℕ) : List ℕ := xs.foldr insert_desc []

/-- The in-place excision loop of `bb84.py` lines 62–64:
`for index in sorted(sample_indices, reverse=True): del key[index]`.
Python `del` mutates the caller's list object, so the value of this
function is the post-call state of the input list (the function returns
that same object). -/
def bb84_excise (xs sample_indices : List ℕ) : List ℕ :=
  (sort_desc sample_indices).foldl (fun acc i => acc.eraseIdx i) xs

/-- `parameter_estimation(sifted_key_alice, sifted_key_bob, sample_ratio)`
from `bb84.py` lines 46–66, with `random.sample` passed in explicitly.
Unlike the numpy version its division is guarded
(`... if sample_size > 0 else 0`), and it excises the sampled indices from
its input lists in place: the two returned lists are the mutated inputs
themselves. -/
def bb84_parameter_estimation (alice bob : List ℕ) (sample_frac : ℚ)
    (sample_indices : List ℕ) : ℚ × List ℕ × List ℕ :=
  let sample_size := (Int.floor ((alice.length : ℚ) * sample_frac)).toNat
  let sample_errors := sample_indices.countP (fun i => !(alice.getD i 0 == bob.getD i 0))
  let estimated_qber : ℚ :=
    if sample_size = 0 then 0 else (sample_errors : ℚ) / (sample_size : ℚ)
  (estimated_qber, bb84_excise alice sample_indices, bb84_excise bob sample_indices)

/-- A request block as both channel implementations see it: a shuffle
(permutation of key indices, carried by identifier on the wire and
reconstructed locally) and a half-open permuted-order range. -/
structure Block where
  perm : List ℕ
  start_index : ℕ
  end_index : ℕ

/-- Modelled from the spec: `Shuffle.calculate_parity` lives in
`qkd/cascade_open_source/shuffle.py`, which is not among the sources; §4.2
specifies it as "the sum modulo 2 of verifier-key bits at the permuted
indices covered by `[start, end)`". -/
def calculate_parity (perm key : List ℕ) (start_index end_index : ℕ) : ℕ :=
  (((List.range' start_index (end_index - start_index)).map
      (fun j => key.getD (perm.getD j 0) 0)).sum) % 2

/-- `SimpleClassicalChannel.ask_parities(blocks)` from
`qkd/cascade_wrapper.py` lines 48–68: given the channel state
(`alice_key`, `bits_leaked`), answer every block in request order and add
one to `bits_leaked` per block.  The code performs no range validation and
has no failure path, so the embedding is a total function returning the
parity list and the updated ledger. -/
def ask_parities (alice_key : List ℕ) (bits_leaked : ℕ) (blocks : List Block) :
    List ℕ × ℕ :=
  blocks.foldl
    (fun acc b =>
      (acc.1 ++ [calculate_parity b.perm alice_key b.start_index b.end_index],
        acc.2 + 1))
    ([], bits_leaked)

/-- `AliceCascadeService.AskParities(request, context)` from
`alice_server.py` lines 82–101: reconstruct each block's shuffle from its
wire identifier (`shuffle_of`, modelled from the spec's deterministic
`permutation_for(id, length)`), answer every block, and add one to
`total_parities_sent` per block.  Like the in-process oracle it validates
nothing and cannot fail. -/
def AskParities (shuffle_of : ℕ → List ℕ) (alice_key : List ℕ)
    (total_parities_sent : ℕ) (blocks : List (ℕ × ℕ × ℕ)) : List ℕ × ℕ :=
  blocks.foldl
    (fun acc b =>
      (acc.1 ++ [calculate_parity (shuffle_of b.1) alice_key b.2.1 b.2.2],
        acc.2 + 1))
    ([], total_parities_sent)

/-- `QBER_THRESHOLD = 0.11` from `bob_client.py` line 19,
`process_large_file.py` line 13 and `small_portion_test.py` line 11. -/
def QBER_THRESHOLD : ℚ := 11 / 100

/-- The post-estimation gate of `run_bob_client` (`bob_client.py` lines
95–97): the abort check `if qber_high > QBER_THRESHOLD: return` is
commented out in the source, so the client proceeds to open the channel
and run reconciliation for every estimate. -/
def bob_client_runs_reconciliation (_qber_high : ℚ) : Bool := true

/-- The post-estimation gate of `process_large_file`
(`process_large_file.py` lines 93–96): the batch is abandoned before any
cascade / channel work exactly when `qber_high > QBER_THRESHOLD`. -/
def process_large_file_aborts_batch (qber_high : ℚ) : Bool :=
  qber_high > QBER_THRESHOLD

/-- The post-estimation gate of `main` (`small_portion_test.py` lines
27–29): the protocol returns before any cascade / channel work exactly
when `qber_high > QBER_THRESHOLD`. -/
def small_portion_aborts (qber_high : ℚ) : Bool :=
  qber_high > QBER_THRESHOLD

/-- The privacy-amplification tail of `run_bob_client` (`bob_client.py`
lines 141–167): return (`none`) if residual errors remain, clamp the
float-computed raw final length at 0, return if it is 0, otherwise hash.
The raw length and the Toeplitz seed are explicit arguments (the length is
computed with float `log2` arithmetic, the seed drawn randomly). -/
def bob_client_pa (corrected_bob : List ℕ) (final_errors : ℕ)
    (final_length_raw : ℤ) (seed : List ℕ) : Option (List ℕ) :=
  if 0 < final_errors then none
  else
    let m := (max 0 final_length_raw).toNat
    if m = 0 then none
    else some (toeplitz_hash corrected_bob m seed).1

/-- The privacy-amplification tail of `process_large_file`
(`process_large_file.py` lines 111–127): hash both keys only when the
clamped final length is positive and the residual error count is 0. -/
def process_large_file_pa (alice_key corrected_bob : List ℕ) (final_errors : ℕ)
    (final_length_raw : ℤ) (seed : List ℕ) : Option (List ℕ × List ℕ) :=
  let m := (max 0 final_length_raw).toNat
  if 0 < m ∧ final_errors = 0 then
    some ((toeplitz_hash alice_key m seed).1, (toeplitz_hash corrected_bob m seed).1)
  else none

/-- The privacy-amplification tail of `main` (`small_portion_test.py`
lines 60–87): return if residual errors remain, return if the clamped
final length is 0, otherwise hash both keys with the shared seed. -/
def small_portion_pa (alice_key corrected_bob : List ℕ) (final_errors : ℕ)
    (final_length_raw : ℤ) (seed : List ℕ) : Option (List ℕ × List ℕ) :=
  if 0 < final_errors then none
  else
    let m := (max 0 final_length_raw).toNat
    if m = 0 then none
    else some ((toeplitz_hash alice_key m seed).1, (toeplitz_hash corrected_bob m seed).1)

/-! ## Theorems -/

/-- Helper: a fold that appends one answer and adds one to a counter per
element answers every element and counts exactly the list length. -/
theorem foldl_emit_spec {β : Type} (g : β → ℕ) (blocks : List β) (acc : List ℕ × ℕ) :
    (blocks.foldl (fun a b => (a.1 ++ [g b], a.2 + 1)) acc).1.length =
        acc.1.length + blocks.length ∧
    (blocks.foldl (fun a b => (a.1 ++ [g b], a.2 + 1)) acc).2 =
        acc.2 + blocks.length := by
  induction blocks generalizing acc with
  | nil => simp
  | cons b bs ih =>
    have h := ih (acc.1 ++ [g b], acc.2 + 1)
    simp only [List.foldl_cons, List.length_cons]
    refine ⟨?_, ?_⟩
    · rw [h.1]; simp; omega
    · rw [h.2]; omega

/-- C1: on `alice_key = [1,0]`, `bob_key = [0,0]`, `block_size = 2`, the
single length-2 block mismatches, so the pass makes one top-level parity
comparison and one half-block comparison inside `binary_search_error`
(two parity queries in total under the claim's accounting), yet
`cascade_iteration` reports `leaked_bits = 1`: the bisection queries are
never added to the ledger.  (The error itself is located and corrected.) -/
theorem cascade_iteration_leak_count_eval :
    cascade_iteration [1, 0] [0, 0] 2 none = ([1, 0], 1, 1) := by decide

/-- C2 (counterexample): a malformed block with `start = end = 1` (so
`start ≥ end`) on the 4-bit key `[0,1,1,0]` is answered successfully (the
empty range has parity 0) and the leakage ledger is incremented from 0 to
1, by both the in-process oracle and the remote service — there is no
`InvalidRange` failure path in either implementation. -/
theorem ask_parities_malformed_range_counterexample :
    ask_parities [0, 1, 1, 0] 0 [⟨[0, 1, 2, 3], 1, 1⟩] = ([0], 1) ∧
    AskParities (fun _ => [0, 1, 2, 3]) [0, 1, 1, 0] 0 [(7, 1, 1)] = ([0], 1) := by
  constructor <;> rfl

/-- C2 (amended): neither `SimpleClassicalChannel.ask_parities` nor
`AliceCascadeService.AskParities` validates block ranges or can fail: every
request is answered with one parity per block, in request order, and the
leakage ledger grows by exactly the number of blocks in the request,
malformed ranges included. -/
theorem ask_parities_no_validation (alice_key : List ℕ) (bits_leaked : ℕ)
    (blocks : List Block) (shuffle_of : ℕ → List ℕ) (key2 : List ℕ)
    (sent : ℕ) (blocks2 : List (ℕ × ℕ × ℕ)) :
    (ask_parities alice_key bits_leaked blocks).1.length = blocks.length ∧
    (ask_parities alice_key bits_leaked blocks).2 = bits_leaked + blocks.length ∧
    (AskParities shuffle_of key2 sent blocks2).1.length = blocks2.length ∧
    (AskParities shuffle_of key2 sent blocks2).2 = sent + blocks2.length := by
  have h1 := foldl_emit_spec
    (fun b : Block => calculate_parity b.perm alice_key b.start_index b.end_index)
    blocks ([], bits_leaked)
  have h2 := foldl_emit_spec
    (fun b : ℕ × ℕ × ℕ => calculate_parity (shuffle_of b.1) key2 b.2.1 b.2.2)
    blocks2 ([], sent)
  simp only [List.length_nil, Nat.zero_add] at h1 h2
  exact ⟨h1.1, h1.2, h2.1, h2.2⟩

/-- C3: with equal 2-bit inputs and `sample_ratio = 0.1` the sample size is
`int(2 · 0.1) = 0`; the unguarded division `errors / sample_size` then
evaluates to NaN (embedded as `none`), not 0, while the confidence interval
is `(0, 0)` thanks to the `n == 0` guard inside `qber_confidence_interval`,
and the residual keys are the untouched inputs.  The claim's `qber = 0`
only holds for the guarded sibling implementations (`bb84.py`,
`postprocessing.py`), not for `qkd/parameter_estimation.py`. -/
theorem parameter_estimation_zero_sample_eval (sqrtA : ℚ → ℚ) :
    parameter_estimation sqrtA [0, 1] [0, 1] (1 / 10) [] =
      (none, (0, 0), [0, 1], [0, 1]) := by
  unfold parameter_estimation
  have h : Int.floor (((2 : ℕ) : ℚ) * (1 / 10)) = 0 := Int.floor_eq_iff.mpr (by norm_num)
  norm_num [h]
  exact ⟨rfl, rfl⟩

/-- C6: at an estimated QBER upper bound of 0.15 — above the configured
threshold 0.11 — `process_large_file.py` and `small_portion_test.py` abort
before any channel work, but `run_bob_client` proceeds to reconciliation
regardless: its threshold check is commented out in the source, so the
claimed halt does not happen in every pipeline driver. -/
theorem bob_client_ignores_qber_threshold :
    QBER_THRESHOLD < 15 / 100 ∧
    bob_client_runs_reconciliation (15 / 100) = true ∧
    process_large_file_aborts_batch (15 / 100) = true ∧
    small_portion_aborts (15 / 100) = true := by
  refine ⟨by norm_num [QBER_THRESHOLD], rfl, ?_, ?_⟩ <;>
    simp [process_large_file_aborts_batch, small_portion_aborts, QBER_THRESHOLD] <;>
    norm_num

/-- C7: in all three pipeline drivers, a nonzero residual error count after
Cascade makes the privacy-amplification stage return without hashing:
`toeplitz_hash` is not invoked and no final key is produced, whatever the
computed final length, seed and keys. -/
theorem pa_skipped_on_residual_errors (alice_key corrected_bob : List ℕ)
    (final_errors : ℕ) (final_length_raw : ℤ) (seed : List ℕ)
    (he : final_errors ≠ 0) :
    bob_client_pa corrected_bob final_errors final_length_raw seed = none ∧
    process_large_file_pa alice_key corrected_bob final_errors final_length_raw seed
      = none ∧
    small_portion_pa alice_key corrected_bob final_errors final_length_raw seed
      = none := by
  have hpos : 0 < final_errors := Nat.pos_of_ne_zero he
  unfold bob_client_pa process_large_file_pa small_portion_pa
  simp [hpos, he]

/-- C7 (witness): the skip-on-residual-errors theorem applied at a concrete
input with one residual error. -/
theorem pa_skipped_on_residual_errors_witness :
    (1 : ℕ) ≠ 0 ∧
    (bob_client_pa [0] 1 5 [1, 1] = none ∧
     process_large_file_pa [1] [0] 1 5 [1, 1] = none ∧
     small_portion_pa [1] [0] 1 5 [1, 1] = none) :=
  ⟨by decide, pa_skipped_on_residual_errors [1] [0] 1 5 [1, 1] (by decide)⟩

/-- C9 (counterexample): at `estimated_qber = 1/12` the quotient
`0.73 / max(qber, 1e-5)` is 8.76; the code's `int()` truncation gives a
base block size of 8 while the claimed `round(...)` gives 9. -/
theorem base_block_size_truncates_counterexample :
    base_block_size (1 / 12) = 8 ∧
    base_block_size_specform (1 / 12) (1 / 100000) = 9 ∧
    base_block_size (1 / 12) ≠ base_block_size_specform (1 / 12) (1 / 100000) := by
  have h8 : base_block_size (1 / 12) = 8 := by
    unfold base_block_size
    rw [max_eq_left (by norm_num : (1 / 100000 : ℚ) ≤ 1 / 12)]
    have h : Int.floor ((73 : ℚ) / 100 / (1 / 12)) = 8 := Int.floor_eq_iff.mpr (by norm_num)
    norm_num [h]
    rfl
  have h9 : base_block_size_specform (1 / 12) (1 / 100000) = 9 := by
    unfold base_block_size_specform
    rw [max_eq_left (by norm_num : (1 / 100000 : ℚ) ≤ 1 / 12), round_eq]
    have h : Int.floor ((73 : ℚ) / 100 / (1 / 12) + 1 / 2) = 9 :=
      Int.floor_eq_iff.mpr (by norm_num)
    norm_num [h]
    rfl
  exact ⟨h8, h9, by rw [h8, h9]; decide⟩

/-- C9 (amended): the engine's pass-`k` block size is
`min(N, base_block_size · 2^k)` with
`base_block_size = max(4, floor(0.73 / max(estimated_qber, 1e-5)))`
(truncation, not rounding; the floor constant is `ε = 1e-5`); the divisor
`max(qber, 1e-5)` is strictly positive for every estimate, the base is at
least 4, and the schedule doubles geometrically from pass to pass until
capped at `N` (so it is monotone in `k`). -/
theorem block_size_schedule (n : ℕ) (qber : ℚ) (k : ℕ) :
    block_size n qber k = min n (base_block_size qber * 2 ^ k) ∧
    (0 : ℚ) < max qber (1 / 100000) ∧
    4 ≤ base_block_size qber ∧
    block_size n qber (k + 1) = min n (2 * (base_block_size qber * 2 ^ k)) ∧
    block_size n qber k ≤ block_size n qber (k + 1) := by
  refine ⟨rfl, ?_, ?_, ?_, ?_⟩
  · exact lt_of_lt_of_le (by norm_num) (le_max_right qber (1 / 100000))
  · exact Nat.le_max_left 4 _
  · unfold block_size
    congr 1
    ring
  · unfold block_size
    exact min_le_min (le_refl n)
      (Nat.mul_le_mul_left _ (Nat.pow_le_pow_right (by norm_num) (Nat.le_succ k)))

/-- Helper: `getD` of a `take` prefix agrees with `getD` of the list. -/

theorem getD_take_eq (a : List ℕ) (m i : ℕ) (him : i < m) (hml : m ≤ a.length) :
    (a.take m).getD i 0 = a.getD i 0 := by
  have h1 : i < (a.take m).length := by rw [List.length_take]; omega
  have h2 : i < a.length := by omega
  rw [List.getD_eq_getElem _ 0 h1, List.getD_eq_getElem _ 0 h2]
  exact List.getElem_take ..

theorem getD_drop_eq (a : List ℕ) (m i : ℕ) (h : m + i < a.length) :
    (a.drop m).getD i 0 = a.getD (m + i) 0 := by
  have h1 : i < (a.drop m).length := by rw [List.length_drop]; omega
  rw [List.getD_eq_getElem _ 0 h1, List.getD_eq_getElem _ 0 h]
  exact List.getElem_drop ..

theorem eq_of_getD_eq (u v : List ℕ) (hlen : u.length = v.length)
    (h : ∀ i, i < u.length → u.getD i 0 = v.getD i 0) : u = v := by
  apply List.ext_getElem hlen
  intro i h1 h2
  have h3 := h i h1
  rwa [List.getD_eq_getElem u 0 h1, List.getD_eq_getElem v 0 h2] at h3

theorem parity_ne_of_unique_diff (u : List ℕ) :
    ∀ (v : List ℕ) (d : ℕ), (∀ x ∈ u, x ≤ 1) → (∀ x ∈ v, x ≤ 1) →
    u.length = v.length → d < u.length →
    (∀ i, i < u.length → (u.getD i 0 ≠ v.getD i 0 ↔ i = d)) →
    parity u ≠ parity v := by
  induction u with
  | nil => intro v d _ _ _ hd _; simp at hd
  | cons x u ih =>
    intro v d hu hv hlen hd hdiff
    cases v with
    | nil => simp at hlen
    | cons y v =>
      have hxu : (x :: u).length = u.length + 1 := rfl
      have hyv : (y :: v).length = v.length + 1 := rfl
      cases d with
      | zero =>
        have hxy : x ≠ y := by
          have := (hdiff 0 (by omega)).mpr rfl
          simpa using this
        have huv : u = v := by
          apply eq_of_getD_eq u v (by omega)
          intro i hi
          by_contra hne
          have := (hdiff (i + 1) (by omega)).mp (by simpa using hne)
          omega
        subst huv
        have hx1 : x ≤ 1 := hu x (by simp)
        have hy1 : y ≤ 1 := hv y (by simp)
        simp only [parity, List.sum_cons]
        omega
      | succ d =>
        have hxy : x = y := by
          by_contra hne
          have := (hdiff 0 (by omega)).mp (by simpa using hne)
          omega
        have hrec : parity u ≠ parity v := by
          apply ih v d (fun z hz => hu z (by simp [hz])) (fun z hz => hv z (by simp [hz]))
            (by omega) (by omega)
          intro i hi
          have := hdiff (i + 1) (by omega)
          simpa using this
        subst hxy
        simp only [parity, List.sum_cons] at hrec ⊢
        omega

theorem binary_search_error_go_correct (fuel : ℕ) :
    ∀ (a b : List ℕ) (s d : ℕ),
    a.length ≤ fuel →
    (∀ x ∈ a, x ≤ 1) → (∀ x ∈ b, x ≤ 1) →
    a.length = b.length → d < a.length →
    (∀ i, i < a.length → (a.getD i 0 ≠ b.getD i 0 ↔ i = d)) →
    binary_search_error_go fuel a b s = some (s + d) := by
  induction fuel with
  | zero => intro a b s d hf _ _ _ hd _; omega
  | succ fuel ih =>
    intro a b s d hf ha hb hlen hd hdiff
    by_cases h1 : a.length = 1
    · have hd0 : d = 0 := by omega
      subst hd0
      simp [binary_search_error_go, h1]
    · have h2le : 2 ≤ a.length := by omega
      have hmid1 : 1 ≤ a.length / 2 := by omega
      have hmidlt : a.length / 2 < a.length := by omega
      simp only [binary_search_error_go, h1, if_false]
      set mid := a.length / 2 with hmiddef
      have htakelen : (a.take mid).length = mid := by
        rw [List.length_take]; omega
      have htakelenb : (b.take mid).length = mid := by
        rw [List.length_take]; omega
      by_cases hcase : d < mid
      · -- the left halves differ exactly at d, so their parities differ
        have hpar : parity (a.take mid) ≠ parity (b.take mid) := by
          apply parity_ne_of_unique_diff (a.take mid) (b.take mid) d
            (fun z hz => ha z (List.take_subset mid a hz))
            (fun z hz => hb z (List.take_subset mid b hz))
            (by omega) (by omega)
          intro i hi
          rw [htakelen] at hi
          rw [getD_take_eq a mid i hi (by omega), getD_take_eq b mid i hi (by omega)]
          exact hdiff i (by omega)
        rw [if_pos hpar]
        apply ih _ _ s d (by omega)
          (fun z hz => ha z (List.take_subset mid a hz))
          (fun z hz => hb z (List.take_subset mid b hz))
          (by omega) (by omega)
        intro i hi
        rw [htakelen] at hi
        rw [getD_take_eq a mid i hi (by omega), getD_take_eq b mid i hi (by omega)]
        exact hdiff i (by omega)
      · -- the left halves agree, so the parities agree; recurse right
        have heq : a.take mid = b.take mid := by
          apply eq_of_getD_eq _ _ (by omega)
          intro i hi
          rw [htakelen] at hi
          rw [getD_take_eq a mid i hi (by omega), getD_take_eq b mid i hi (by omega)]
          by_contra hne
          have := (hdiff i (by omega)).mp hne
          omega
        rw [if_neg (by rw [heq]; exact fun hc => hc rfl)]
        have hres := ih (a.drop mid) (b.drop mid) (s + mid) (d - mid)
          (by rw [List.length_drop]; omega)
          (fun z hz => ha z (List.drop_subset mid a hz))
          (fun z hz => hb z (List.drop_subset mid b hz))
          (by rw [List.length_drop, List.length_drop]; omega)
          (by rw [List.length_drop]; omega)
          ?_
        · rw [hres]
          congr 1
          omega
        · intro i hi
          rw [List.length_drop] at hi
          rw [getD_drop_eq a mid i (by omega), getD_drop_eq b mid i (by omega)]
          constructor
          · intro hne
            have := (hdiff (mid + i) (by omega)).mp hne
            omega
          · intro hi2
            apply (hdiff (mid + i) (by omega)).mpr
            omega

/-- C4: on two equal-length 0/1 blocks that differ in exactly one position
`d`, `binary_search_error` returns `start_index + d`, and flipping the
corrector's bit at that offset (`^= 1`, as `cascade_iteration` does) makes
the corrector's block equal to the verifier's — so the parities of the two
blocks and of every sub-block agree.  Proved for every block length, which
includes every power of two, and every single-bit-error position. -/
theorem binary_search_error_locates_single_error (a b : List ℕ) (s d : ℕ)
    (ha : ∀ x ∈ a, x ≤ 1) (hb : ∀ x ∈ b, x ≤ 1)
    (hlen : a.length = b.length) (hd : d < a.length)
    (hdiff : ∀ i, i < a.length → (a.getD i 0 ≠ b.getD i 0 ↔ i = d)) :
    binary_search_error a b s = some (s + d) ∧ flip_bit b d = a := by
  constructor
  · exact binary_search_error_go_correct a.length a b s d (le_refl _) ha hb hlen hd hdiff
  · unfold flip_bit
    apply eq_of_getD_eq _ _ (by rw [List.length_set]; omega)
    intro i hi
    rw [List.length_set] at hi
    have hia : i < a.length := by omega
    by_cases hcase : i = d
    · subst hcase
      have hset : (b.set i (b.getD i 0 ^^^ 1)).getD i 0 = b.getD i 0 ^^^ 1 := by
        rw [List.getD_eq_getElem _ 0 (by rw [List.length_set]; omega)]
        exact List.getElem_set_self ..
      rw [hset]
      have hne : a.getD i 0 ≠ b.getD i 0 := (hdiff i hia).mpr rfl
      have ha1 : a.getD i 0 ≤ 1 := by
        rw [List.getD_eq_getElem a 0 hia]; exact ha _ (List.getElem_mem ..)
      have hb1 : b.getD i 0 ≤ 1 := by
        rw [List.getD_eq_getElem b 0 hi]; exact hb _ (List.getElem_mem ..)
      have hb01 : b.getD i 0 = 0 ∨ b.getD i 0 = 1 := by omega
      have ha01 : a.getD i 0 = 0 ∨ a.getD i 0 = 1 := by omega
      rcases hb01 with h0 | h0 <;> rcases ha01 with h2 | h2 <;> rw [h2, h0] at hne ⊢ <;>
        first
          | exact absurd rfl hne
          | rfl
    · have hset : (b.set d (b.getD d 0 ^^^ 1)).getD i 0 = b.getD i 0 := by
        rw [List.getD_eq_getElem?_getD, List.getElem?_set_ne (by omega),
          ← List.getD_eq_getElem?_getD]
      rw [hset]
      by_contra hne2
      exact hcase ((hdiff i hia).mp (fun h => hne2 h.symm))

/-- C4 (witness): the bisection theorem applied to the concrete blocks
`[0,1,0,0]` / `[0,0,0,0]` (length 4, a power of two), which differ exactly
at offset 1, with start index 3. -/
theorem binary_search_error_locates_single_error_witness :
    (∀ x ∈ ([0, 1, 0, 0] : List ℕ), x ≤ 1) ∧
    (binary_search_error [0, 1, 0, 0] [0, 0, 0, 0] 3 = some 4 ∧
      flip_bit [0, 0, 0, 0] 1 = [0, 1, 0, 0]) :=
  ⟨by decide,
    binary_search_error_locates_single_error [0, 1, 0, 0] [0, 0, 0, 0] 3 1
      (by decide) (by decide) (by decide) (by decide) (by decide)⟩



/-- Helper: a zipped bitwise-AND sum over equal-length lists equals the
index-wise AND sum. -/
theorem zipWith_and_sum (u : List ℕ) : ∀ (w : List ℕ), u.length = w.length →
    (u.zipWith (fun a b => a &&& b) w).sum =
    ((List.range u.length).map (fun j => u.getD j 0 &&& w.getD j 0)).sum := by
  induction u with
  | nil => intro w _; simp
  | cons x u ih =>
    intro w h
    cases w with
    | nil => simp at h
    | cons y w =>
      have hlen : u.length = w.length := by simpa using h
      rw [List.zipWith_cons_cons, List.sum_cons, List.length_cons,
        List.range_succ_eq_map, List.map_cons, List.sum_cons, List.map_map]
      simp only [Function.comp_def, Nat.succ_eq_add_one, List.getD_cons_zero,
        List.getD_cons_succ]
      rw [ih w hlen]

/-- C8: for any key, output length `m` and explicitly supplied seed of
length at least `n + m - 1`, `toeplitz_hash` is deterministic (equal
arguments give bit-identical results, and the seed is returned verbatim),
its output has length `m`, and output bit `i` is the modulo-2 sum of the
bitwise AND of the key with the seed window `[i, i + n)`. -/
theorem toeplitz_hash_deterministic_window_parity (key : List ℕ) (m : ℕ)
    (seed : List ℕ) (hseed : key.length + m ≤ seed.length + 1) :
    (∀ (key2 seed2 : List ℕ) (m2 : ℕ), key2 = key → m2 = m → seed2 = seed →
        toeplitz_hash key2 m2 seed2 = toeplitz_hash key m seed) ∧
    (toeplitz_hash key m seed).1.length = m ∧
    (toeplitz_hash key m seed).2 = seed ∧
    (∀ i, i < m →
      (toeplitz_hash key m seed).1.getD i 0 =
        ((List.range key.length).map
            (fun j => key.getD j 0 &&& seed.getD (i + j) 0)).sum % 2) := by
  refine ⟨?_, ?_, rfl, ?_⟩
  · intro key2 seed2 m2 h1 h2 h3; rw [h1, h2, h3]
  · simp [toeplitz_hash]
  · intro i hi
    have hwin : ((seed.drop i).take key.length).length = key.length := by
      rw [List.length_take, List.length_drop]; omega
    have hL : (toeplitz_hash key m seed).1.getD i 0 =
        (((seed.drop i).take key.length).zipWith (fun a b => a &&& b) key).sum % 2 := by
      unfold toeplitz_hash
      rw [List.getD_eq_getElem _ 0 (by simpa using hi)]
      simp
    rw [hL, zipWith_and_sum _ key (by rw [hwin]), hwin]
    congr 1
    refine congrArg List.sum (List.map_congr_left ?_)
    intro j hj
    have hjn : j < key.length := by simpa using hj
    rw [getD_take_eq _ _ _ hjn (by rw [List.length_drop]; omega),
      getD_drop_eq _ _ _ (by omega)]
    exact Nat.and_comm ..

/-- C8 (witness): the Toeplitz theorem applied to key `[1,0,1]`, output
length 2 and seed `[1,1,0,1]` (length 4 = 3 + 2 - 1). -/
theorem toeplitz_hash_deterministic_window_parity_witness :
    (3 : ℕ) + 2 ≤ 4 + 1 ∧
    ((∀ (key2 seed2 : List ℕ) (m2 : ℕ),
        key2 = [1, 0, 1] → m2 = 2 → seed2 = [1, 1, 0, 1] →
        toeplitz_hash key2 m2 seed2 = toeplitz_hash [1, 0, 1] 2 [1, 1, 0, 1]) ∧
      (toeplitz_hash [1, 0, 1] 2 [1, 1, 0, 1]).1.length = 2 ∧
      (toeplitz_hash [1, 0, 1] 2 [1, 1, 0, 1]).2 = [1, 1, 0, 1] ∧
      (∀ i, i < 2 →
        (toeplitz_hash [1, 0, 1] 2 [1, 1, 0, 1]).1.getD i 0 =
          ((List.range (3 : ℕ)).map
              (fun j => ([1, 0, 1] : List ℕ).getD j 0 &&&
                ([1, 1, 0, 1] : List ℕ).getD (i + j) 0)).sum % 2)) :=
  ⟨by decide, toeplitz_hash_deterministic_window_parity [1, 0, 1] 2 [1, 1, 0, 1] (by decide)⟩

/-- Helper: the enumerate-filter-project form of the boolean mask, shifted
to an arbitrary starting index. -/
theorem mask_keep_enumFrom (idx : List ℕ) (xs : List ℕ) : ∀ (k : ℕ),
    ((xs.enumFrom k).filter (fun q => !idx.contains q.1)).map Prod.snd =
    ((List.range' k xs.length).filter (fun i => !idx.contains i)).map
      (fun i => xs.getD (i - k) 0) := by
  induction xs with
  | nil => intro k; rfl
  | cons x xs ih =>
    intro k
    have hE : (x :: xs).enumFrom k = (k, x) :: xs.enumFrom (k + 1) := rfl
    have hR : List.range' k (x :: xs).length = k :: List.range' (k + 1) xs.length := by
      rw [show (x :: xs).length = xs.length + 1 from rfl]
      exact List.range'_succ k xs.length 1
    rw [hE, hR, List.filter_cons, List.filter_cons]
    by_cases hk : idx.contains k
    · simp only [hk, Bool.not_true]
      rw [if_neg (by simp), if_neg (by simp), ih (k + 1)]
      apply List.map_congr_left
      intro i hi
      have hge : k + 1 ≤ i := (List.mem_range'_1.mp (List.mem_of_mem_filter hi)).1
      have hstep : i - k = (i - (k + 1)) + 1 := by omega
      rw [hstep, List.getD_cons_succ]
    · simp only [hk, Bool.not_false]
      rw [if_pos (by simp), if_pos (by simp), List.map_cons, List.map_cons]
      congr 1
      · simp [Nat.sub_self]
      · rw [ih (k + 1)]
        apply List.map_congr_left
        intro i hi
        have hge : k + 1 ≤ i := (List.mem_range'_1.mp (List.mem_of_mem_filter hi)).1
        have hstep : i - k = (i - (k + 1)) + 1 := by omega
        rw [hstep, List.getD_cons_succ]

/-- Helper: `mask_keep` keeps exactly the entries at unsampled indices, in
increasing index order. -/
theorem mask_keep_eq_range_filter (xs idx : List ℕ) :
    mask_keep xs idx =
    ((List.range xs.length).filter (fun i => !idx.contains i)).map
      (fun i => xs.getD i 0) := by
  unfold mask_keep
  have h := mask_keep_enumFrom idx xs 0
  rw [show xs.enum = xs.enumFrom 0 from rfl, h, ← List.range_eq_range' xs.length]
  apply List.map_congr_left
  intro i _
  rw [Nat.sub_zero]

/-- Helper: excising a duplicate-free in-range sample removes exactly
`sample_size` entries. -/
theorem mask_keep_length (xs idx : List ℕ) (hnd : idx.Nodup)
    (hlt : ∀ i ∈ idx, i < xs.length) :
    (mask_keep xs idx).length = xs.length - idx.length := by
  rw [mask_keep_eq_range_filter, List.length_map]
  have hsplit := List.length_eq_length_filter_add
    (l := List.range xs.length) (fun i => !idx.contains i)
  simp only [Bool.not_not] at hsplit
  rw [List.length_range] at hsplit
  have hperm : ((List.range xs.length).filter (fun i => idx.contains i)).Perm idx := by
    apply (List.perm_ext_iff_of_nodup ((List.nodup_range xs.length).filter _) hnd).mpr
    intro a
    simp only [List.mem_filter, List.mem_range]
    constructor
    · rintro ⟨_, hc⟩
      simpa using hc
    · intro ha
      exact ⟨hlt a ha, by simpa using ha⟩
  have hlen2 := hperm.length_eq
  omega

/-- C5 (counterexample): `bb84.py`'s `parameter_estimation` excises the
sampled indices from its input lists in place (`del` inside the loop at
lines 62-64 mutates the caller's list objects, and the same objects are
returned).  With `alice = bob = [0,1]` and sampled index 0, the post-call
state of the input list — which the embedding equates with the returned
list — is `[1]`, not the original `[0,1]`: the inputs are not left
unmodified. -/
theorem bb84_parameter_estimation_mutates_input :
    (bb84_parameter_estimation [0, 1] [0, 1] (1 / 2) [0]).2.1 = [1] ∧
    ([1] : List ℕ) ≠ [0, 1] := ⟨rfl, by decide⟩

/-- C5 (amended): for `qkd/parameter_estimation.py`, given a duplicate-free
in-range sample of equal-length inputs, each residual key is exactly the
input restricted to the unsampled indices in increasing order (so it
contains no sampled index and preserves relative order) and has length
`len(input) - sample_size`; the numpy version builds these as fresh masked
copies, leaving its inputs unmodified, whereas `bb84.py`'s variant excises
in place and returns the mutated inputs themselves. -/
theorem parameter_estimation_residual_exclusion (sqrtA : ℚ → ℚ)
    (alice bob : List ℕ) (frac : ℚ) (idx : List ℕ)
    (hnd : idx.Nodup) (hlt : ∀ i ∈ idx, i < alice.length)
    (hlen : alice.length = bob.length) :
    (parameter_estimation sqrtA alice bob frac idx).2.2.1 =
      ((List.range alice.length).filter (fun i => !idx.contains i)).map
        (fun i => alice.getD i 0) ∧
    (parameter_estimation sqrtA alice bob frac idx).2.2.2 =
      ((List.range bob.length).filter (fun i => !idx.contains i)).map
        (fun i => bob.getD i 0) ∧
    (parameter_estimation sqrtA alice bob frac idx).2.2.1.length =
      alice.length - idx.length ∧
    (parameter_estimation sqrtA alice bob frac idx).2.2.2.length =
      bob.length - idx.length := by
  have h1 : (parameter_estimation sqrtA alice bob frac idx).2.2.1 =
      mask_keep alice idx := rfl
  have h2 : (parameter_estimation sqrtA alice bob frac idx).2.2.2 =
      mask_keep bob idx := rfl
  have hltb : ∀ i ∈ idx, i < bob.length := fun i hi => hlen ▸ hlt i hi
  rw [h1, h2]
  exact ⟨mask_keep_eq_range_filter alice idx, mask_keep_eq_range_filter bob idx,
    mask_keep_length alice idx hnd hlt, mask_keep_length bob idx hnd hltb⟩

/-- C5 (witness): the residual-exclusion theorem applied to the inputs
`[0,1,1,0]` / `[0,1,0,0]` with sample indices `[1,3]`. -/
theorem parameter_estimation_residual_exclusion_witness :
    ([1, 3] : List ℕ).Nodup ∧
    ((parameter_estimation (fun _ => 0) [0, 1, 1, 0] [0, 1, 0, 0] (1 / 2) [1, 3]).2.2.1 =
        ((List.range 4).filter (fun i => !([1, 3] : List ℕ).contains i)).map
          (fun i => ([0, 1, 1, 0] : List ℕ).getD i 0) ∧
      (parameter_estimation (fun _ => 0) [0, 1, 1, 0] [0, 1, 0, 0] (1 / 2) [1, 3]).2.2.2 =
        ((List.range 4).filter (fun i => !([1, 3] : List ℕ).contains i)).map
          (fun i => ([0, 1, 0, 0] : List ℕ).getD i 0) ∧
      (parameter_estimation (fun _ => 0) [0, 1, 1, 0] [0, 1, 0, 0] (1 / 2) [1, 3]).2.2.1.length =
        4 - 2 ∧
      (parameter_estimation (fun _ => 0) [0, 1, 1, 0] [0, 1, 0, 0] (1 / 2) [1, 3]).2.2.2.length =
        4 - 2) :=
  ⟨by decide,
    parameter_estimation_residual_exclusion (fun _ => 0) [0, 1, 1, 0] [0, 1, 0, 0]
      (1 / 2) [1, 3] (by decide) (by decide) (by decide)⟩



/-- Helper: a fold of point assignments preserves the array length. -/
theorem foldl_set_length (l : List (ℕ × ℕ)) : ∀ acc : List ℕ,
    (l.foldl (fun a q => a.set q.1 q.2) acc).length = acc.length := by
  induction l with
  | nil => intro acc; rfl
  | cons q l ih => intro acc; rw [List.foldl_cons, ih, List.length_set]

/-- Helper: one block step never changes the corrected key's length. -/
theorem cascade_step_length (alice bob : List ℕ) (bs : ℕ)
    (acc : List ℕ × ℕ × ℕ) (i : ℕ) :
    ((cascade_step alice bob bs acc i).1).length = acc.1.length := by
  simp only [cascade_step, flip_bit]
  split
  · rfl
  · split
    · simp [List.length_set]
    · rfl

/-- Helper: the whole block loop never changes the corrected key's
length. -/
theorem foldl_cascade_length (alice bob : List ℕ) (bs : ℕ) (l : List ℕ) :
    ∀ acc, ((l.foldl (cascade_step alice bob bs) acc).1).length = acc.1.length := by
  induction l with
  | nil => intro acc; rfl
  | cons i l ih => intro acc; rw [List.foldl_cons, ih, cascade_step_length]

/-- Helper: a cascade pass returns a corrected key of the corrector key's
length. -/
theorem cascade_pass_length (n : ℕ) (alice bob : List ℕ) (bs : ℕ) :
    (cascade_pass n alice bob bs).1.length = bob.length := by
  unfold cascade_pass
  exact foldl_cascade_length alice bob bs _ (bob, 0, 0)

/-- Helper: scatter-assignment never touches an index outside the
assignment list. -/
theorem foldl_set_getD_of_not_mem (idx : List ℕ) :
    ∀ (vals acc : List ℕ) (i : ℕ), i ∉ idx →
    ((idx.zip vals).foldl (fun a q => a.set q.1 q.2) acc).getD i 0 = acc.getD i 0 := by
  induction idx with
  | nil => intro vals acc i _; rfl
  | cons j idx ih =>
    intro vals acc i hi
    cases vals with
    | nil => rfl
    | cons v vals =>
      rw [List.zip_cons_cons, List.foldl_cons,
        ih vals _ i (fun h => hi (List.mem_cons_of_mem _ h))]
      have hne : i ≠ j := fun h => hi (h ▸ List.mem_cons_self j idx)
      rw [List.getD_eq_getElem?_getD, List.getD_eq_getElem?_getD,
        List.getElem?_set_ne (by omega)]

/-- Helper: gathering a scatter-assigned array along the same
duplicate-free index list returns the assigned values. -/
theorem gather_scatter (idx : List ℕ) : ∀ (vals acc : List ℕ), idx.Nodup →
    idx.length = vals.length → (∀ j ∈ idx, j < acc.length) →
    npIndex ((idx.zip vals).foldl (fun a q => a.set q.1 q.2) acc) idx = vals := by
  induction idx with
  | nil =>
    intro vals acc _ hl _
    cases vals with
    | nil => rfl
    | cons v vals => simp at hl
  | cons j idx ih =>
    intro vals acc hnd hl hacc
    cases vals with
    | nil => simp at hl
    | cons v vals =>
      rw [List.zip_cons_cons, List.foldl_cons]
      have hjnot : j ∉ idx := (List.nodup_cons.mp hnd).1
      simp only [npIndex, List.map_cons]
      congr 1
      · rw [foldl_set_getD_of_not_mem idx vals _ j hjnot]
        have hjlt : j < acc.length := hacc j (List.mem_cons_self j idx)
        rw [List.getD_eq_getElem _ 0 (by rw [List.length_set]; omega)]
        exact List.getElem_set_self ..
      · have := ih vals (acc.set j v) (List.nodup_cons.mp hnd).2
          (by simpa using hl)
          (fun t ht => by rw [List.length_set]; exact hacc t (List.mem_cons_of_mem _ ht))
        simpa [npIndex] using this

/-- Helper: `scatter` returns an array of the requested length. -/
theorem scatter_length (idx vals : List ℕ) (n : ℕ) :
    (scatter idx vals n).length = n := by
  unfold scatter
  rw [foldl_set_length, List.length_replicate]

/-- C10: for equal-length keys and any bijective permutation `p` of the
index range, `cascade_iteration(a, b, bs, p)` returns the same leaked-bit
and corrected-error counts as `cascade_iteration(a[p], b[p], bs, None)`,
and its corrected key is the inverse-permutation image of the latter's
corrected key (gathering it along `p` recovers the permuted-space result,
i.e. every flip lands at the corresponding original index), with the
returned key having the input's length. -/
theorem cascade_iteration_permutation_equivariant (alice bob p : List ℕ) (bs : ℕ)
    (hlen : alice.length = bob.length) (hp : p.Perm (List.range alice.length)) :
    (cascade_iteration alice bob bs (some p)).2 =
      (cascade_iteration (npIndex alice p) (npIndex bob p) bs none).2 ∧
    npIndex (cascade_iteration alice bob bs (some p)).1 p =
      (cascade_iteration (npIndex alice p) (npIndex bob p) bs none).1 ∧
    (cascade_iteration alice bob bs (some p)).1.length = alice.length := by
  have hplen : p.length = alice.length := by
    have h := hp.length_eq
    simpa using h
  have hpnodup : p.Nodup := hp.nodup_iff.mpr (List.nodup_range alice.length)
  have hpmem : ∀ j ∈ p, j < alice.length := by
    intro j hj
    have h := hp.mem_iff.mp hj
    simpa using h
  have hap : (npIndex alice p).length = alice.length := by
    simp [npIndex, hplen]
  have hbp : (npIndex bob p).length = p.length := by simp [npIndex]
  have hrlen :
      (cascade_pass alice.length (npIndex alice p) (npIndex bob p) bs).1.length
        = p.length := by
    rw [cascade_pass_length, hbp]
  have hRHS : cascade_iteration (npIndex alice p) (npIndex bob p) bs none =
      cascade_pass alice.length (npIndex alice p) (npIndex bob p) bs := by
    simp only [cascade_iteration]
    rw [hap]
  have hLHS : cascade_iteration alice bob bs (some p) =
      (scatter p (cascade_pass alice.length (npIndex alice p) (npIndex bob p) bs).1
          (cascade_pass alice.length (npIndex alice p) (npIndex bob p) bs).1.length,
        (cascade_pass alice.length (npIndex alice p) (npIndex bob p) bs).2.1,
        (cascade_pass alice.length (npIndex alice p) (npIndex bob p) bs).2.2) := rfl
  refine ⟨?_, ?_, ?_⟩
  · rw [hLHS, hRHS]
  · rw [hLHS, hRHS]
    simp only
    unfold scatter
    rw [hrlen]
    apply gather_scatter p _ _ hpnodup hrlen.symm
    intro j hj
    rw [List.length_replicate, hplen]
    exact hpmem j hj
  · rw [hLHS]
    simp only
    rw [scatter_length]
    rw [hrlen, hplen]

/-- C10 (witness): the equivariance theorem applied to `alice = [1,0]`,
`bob = [0,0]`, permutation `[1,0]`, block size 2. -/
theorem cascade_iteration_permutation_equivariant_witness :
    ([1, 0] : List ℕ).length = ([0, 0] : List ℕ).length ∧
    ([1, 0] : List ℕ).Perm (List.range 2) ∧
    ((cascade_iteration [1, 0] [0, 0] 2 (some [1, 0])).2 =
        (cascade_iteration (npIndex [1, 0] [1, 0]) (npIndex [0, 0] [1, 0]) 2 none).2 ∧
      npIndex (cascade_iteration [1, 0] [0, 0] 2 (some [1, 0])).1 [1, 0] =
        (cascade_iteration (npIndex [1, 0] [1, 0]) (npIndex [0, 0] [1, 0]) 2 none).1 ∧
      (cascade_iteration [1, 0] [0, 0] 2 (some [1, 0])).1.length = 2) :=
  ⟨by decide, by decide,
    cascade_iteration_permutation_equivariant [1, 0] [0, 0] [1, 0] 2
      (by decide) (by decide)⟩


end QKD
